import Mathlib

/-!
Verification development for `src/ropen.c` (obinexus/ropen).

The file shallowly embeds the two components of the program:

* the "Red-Black AVL" index (`RBNode` / `bst_insert` / `rebalance_up` /
  `rb_insert` / `find` / `mark_measurement`), modelled as the inductive
  `Ropen.RBTree` with explicit stored heights (the `height` field of the C
  struct, a `uint8`, hence the `% 256` in `updateHeight`), and

* the 2→1 sparse duplex encoder (`conjugate` / `rift_encode` / `rift_open`),
  modelled over `List Nat` where each element stands for one `uint8`.

Machine integers are modelled as `Nat` with explicit truncation where the C
performs one (`% 256` for `uint8` stores, `% 2 ^ 32` for the `(uint32_t)`
cast of the running output length).  The `float confidence` field is modelled
as `ℚ`; every confidence value the program compares against the threshold
`0.5` keeps its order relative to `0.5` under this translation.

The `color` field of `RBNode` is written (`rb_insert` line 121) but never
read by any operation, so it is omitted from the embedding; no modelled
behaviour depends on it.
-/

namespace Ropen

/-- Entry payload of a tree node: `val`, `confidence`, `polarity` of `RBNode`. -/
structure Entry where
  val : Nat
  conf : ℚ
  pol : Nat
  deriving DecidableEq, Repr

/-- The index tree, mirroring `struct RBNode`: key, payload, stored height
(the `uint8` `height` field), left and right children.  Parent pointers of
the C struct are implicit in the functional representation. -/
inductive RBTree where
  | nil : RBTree
  | node (key : Nat) (val : Nat) (conf : ℚ) (pol : Nat) (hgt : Nat)
      (l : RBTree) (r : RBTree) : RBTree
  deriving DecidableEq, Repr

/-- Polarity constant `POLARITY_POS = '+'` (0x2B). -/
def POLARITY_POS : Nat := 43

/-- Polarity constant `POLARITY_NEG = '-'` (0x2D). -/
def POLARITY_NEG : Nat := 45

/-- Pruning threshold `PRUNE_THRESHOLD = 0.5f`. -/
def PRUNE_THRESHOLD : ℚ := 1 / 2

/-- Streak threshold `PRUNE_STREAK = 1`. -/
def PRUNE_STREAK : Nat := 1

/-- Stored height of a node, C helper `height`: 0 for an absent child,
otherwise the stored `height` field. -/
def height : RBTree → Nat
  | RBTree.nil => 0
  | RBTree.node _ _ _ _ h _ _ => h

/-- Balance factor, C helper `bf`: stored height of the left child minus
stored height of the right child, as a signed integer. -/
def bf : RBTree → Int
  | RBTree.nil => 0
  | RBTree.node _ _ _ _ _ l r => (height l : Int) - (height r : Int)

/-- C helper `update_height`: recompute the root's stored height as
`1 + max(height l, height r)`, truncated to `uint8`. -/
def updateHeight : RBTree → RBTree
  | RBTree.nil => RBTree.nil
  | RBTree.node k v c p _ l r =>
      RBTree.node k v c p ((1 + max (height l) (height r)) % 256) l r

/-- C `rotate_left`: pivot the right child up.  When the right child is
absent the C returns the node unchanged (`if (!y) return x;`).  The heights
of the two pivoted nodes are recomputed, old node first, exactly as the two
`update_height` calls at the end of the C function. -/
def rotateLeft : RBTree → RBTree
  | RBTree.node k v c p h l (RBTree.node k2 v2 c2 p2 h2 l2 r2) =>
      updateHeight (RBTree.node k2 v2 c2 p2 h2
        (updateHeight (RBTree.node k v c p h l l2)) r2)
  | t => t

/-- C `rotate_right`: mirror image of `rotateLeft`. -/
def rotateRight : RBTree → RBTree
  | RBTree.node k v c p h (RBTree.node k2 v2 c2 p2 h2 l2 r2) r =>
      updateHeight (RBTree.node k2 v2 c2 p2 h2 l2
        (updateHeight (RBTree.node k v c p h r2 r)))
  | t => t

/-- Pre-rotation of the left child in the left-right case of `rebalance_up`:
`if (bf(n->left) < 0) n->left = rotate_left(n->left);`. -/
def preL : RBTree → RBTree
  | RBTree.nil => RBTree.nil
  | RBTree.node k v c p h l r =>
      if bf l < 0 then RBTree.node k v c p h (rotateLeft l) r
      else RBTree.node k v c p h l r

/-- Pre-rotation of the right child in the right-left case of `rebalance_up`:
`if (bf(n->right) > 0) n->right = rotate_right(n->right);`. -/
def preR : RBTree → RBTree
  | RBTree.nil => RBTree.nil
  | RBTree.node k v c p h l r =>
      if bf r > 0 then RBTree.node k v c p h l (rotateRight r)
      else RBTree.node k v c p h l r

/-- Number of nodes in the tree. -/
def size : RBTree → Nat
  | RBTree.nil => 0
  | RBTree.node _ _ _ _ _ l r => 1 + size l + size r

/-- One position of the `rebalance_up` while-loop: `update_height(n)`, then
rotate while the stored balance factor is outside `[-1, 1]`, staying at the
same position after a rotation (the C sets `n` to the rotated subtree's new
root and re-enters the loop there); once balanced, control moves to the
parent, which in this functional rendering is the caller.  `fuel` bounds the
number of loop iterations spent at this position; every concrete run in this
file terminates with the balanced branch long before the fuel (subtree size
plus 2) is exhausted, and every universally quantified theorem below is
independent of the fuel value. -/
def fixup : Nat → RBTree → RBTree
  | 0, t => t
  | Nat.succ fuel, t =>
      let t1 := updateHeight t
      if bf t1 > 1 then fixup fuel (rotateRight (preL t1))
      else if bf t1 < -1 then fixup fuel (rotateLeft (preR t1))
      else t1

/-- C `bst_insert` combined with the per-ancestor work of `rebalance_up`.
Returns the new subtree and a flag telling whether a fresh node was created.
A fresh node is allocated with `calloc`, so its stored height starts at 0
(the C never runs `update_height` on the new leaf itself).  On the way back
up, a fresh insertion runs the `rebalance_up` loop body at each ancestor
(`fixup`), while a duplicate key only re-runs `update_height` on the
ancestors (`bst_insert` updates heights on the search path and
`rebalance_up` is a no-op because the freed node has a null parent). -/
def bstInsert : RBTree → Nat → Nat → ℚ → Nat → RBTree × Bool
  | RBTree.nil, key, v, c, p =>
      (RBTree.node key v c p 0 RBTree.nil RBTree.nil, true)
  | RBTree.node k v0 c0 p0 h l r, key, v, c, p =>
      if key < k then
        let res := bstInsert l key v c p
        let t := RBTree.node k v0 c0 p0 h res.1 r
        (if res.2 then fixup (size t + 2) t else updateHeight t, res.2)
      else if k < key then
        let res := bstInsert r key v c p
        let t := RBTree.node k v0 c0 p0 h l res.1
        (if res.2 then fixup (size t + 2) t else updateHeight t, res.2)
      else
        (RBTree.node k v c p h l r, false)

/-- C `rb_insert`: insert into the global tree.  Inserting into an empty
tree makes the new node the root and `rebalance_up` starts at the node
itself, so its height is recomputed to 1; otherwise the rebalancing starts
at the parent of the inserted node, which the recursion of `bstInsert`
already performs. -/
def rbInsert (t : RBTree) (key v : Nat) (c : ℚ) (p : Nat) : RBTree :=
  match t with
  | RBTree.nil =>
      updateHeight (RBTree.node key v c p 0 RBTree.nil RBTree.nil)
  | RBTree.node _ _ _ _ _ _ _ => (bstInsert t key v c p).1

/-- C `find`: comparison-guided lookup, returning the payload of the node
with the given key. -/
def find : RBTree → Nat → Option Entry
  | RBTree.nil, _ => none
  | RBTree.node k v c p _ l r, key =>
      if key = k then some ⟨v, c, p⟩
      else if key < k then find l key
      else find r key

/-- Write a new payload at the node holding `key`, following the same
comparison path as `find`; this models the in-place mutation that the C
performs through the pointer returned by `find`. -/
def setPayload : RBTree → Nat → Entry → RBTree
  | RBTree.nil, _, _ => RBTree.nil
  | RBTree.node k v c p h l r, key, e =>
      if key = k then RBTree.node k e.val e.conf e.pol h l r
      else if key < k then RBTree.node k v c p h (setPayload l key e) r
      else RBTree.node k v c p h l (setPayload r key e)

/-- Whole state touched by `mark_measurement`: the tree plus the 256-bucket
streak counters (`static int streak[256]`, indexed by `key & 0xFF`). -/
structure MState where
  tree : RBTree
  streak : Nat → Nat

/-- Initial state: empty tree, all streak counters 0. -/
def initState : MState := ⟨RBTree.nil, fun _ => 0⟩

/-- C `mark_measurement`.  A miss returns the state unchanged.  On a hit the
confidence is overwritten, the polarity is overwritten only when the
argument is nonzero, and then the pruning policy runs: a qualifying
measurement (confidence below the threshold, or resulting polarity
negative) increments the bucket's streak and, once the streak reaches
`PRUNE_STREAK`, zeroes the entry's value and confidence.  The two sequential
mutations of the C (write confidence/polarity, then possibly prune) are
netted into one `setPayload` with the final payload.  The non-qualifying
branch is modelled from the spec for one token: the C writes the reset as
`streak[key & 0xFF] = 0;` in the else branch, where `streak` (declared
inside the if-block) is out of scope, so the translation unit does not
compile; §4.1 of the spec states the intent "reset that bucket's streak
counter to 0", which is what this branch does. -/
def markMeasurement (st : MState) (key : Nat) (conf : ℚ) (pol : Nat) : MState :=
  match find st.tree key with
  | none => st
  | some e =>
      let pol2 := if pol ≠ 0 then pol else e.pol
      let b := key % 256
      if conf < PRUNE_THRESHOLD ∨ pol2 = POLARITY_NEG then
        let s := st.streak b + 1
        let tr :=
          if PRUNE_STREAK ≤ s then setPayload st.tree key ⟨0, 0, pol2⟩
          else setPayload st.tree key ⟨e.val, conf, pol2⟩
        ⟨tr, fun i => if i = b then s else st.streak i⟩
      else
        ⟨setPayload st.tree key ⟨e.val, conf, pol2⟩,
         fun i => if i = b then 0 else st.streak i⟩

/-- C `conjugate`: `0xF ^ x` on a `uint8`. -/
def conjugate (x : Nat) : Nat := 15 ^^^ x

/-- Truncation of a model value to the `uint8` the C buffer holds. -/
def byte (x : Nat) : Nat := x % 256

/-- The combined output byte of one input pair, C line
`(polarity_A ? a : conjugate(a)) ^ (polarity_A ? conjugate(b) : b)`. -/
def logical (polA : Bool) (a b : Nat) : Nat :=
  (if polA then byte a else conjugate (byte a)) ^^^
    (if polA then conjugate (byte b) else byte b)

/-- Loop body of C `rift_encode`: consume the input two bytes at a time,
padding a trailing odd byte with `0x00`; for every output byte, insert it
into the tree under key `(uint32_t)out_len` (the 1-based position within
this call, truncated to 32 bits) with confidence 1 and polarity `'+'` for
polarity A, `'-'` for polarity B.  `pos` is the current value of the local
counter `out_len`. -/
def riftEncodeGo (polA : Bool) : List Nat → Nat → RBTree → List Nat × RBTree
  | [], _, t => ([], t)
  | [a], pos, t =>
      let o := logical polA a 0
      ([o], rbInsert t ((pos + 1) % 2 ^ 32) o 1
        (if polA then POLARITY_POS else POLARITY_NEG))
  | a :: b :: rest, pos, t =>
      let o := logical polA a b
      let t2 := rbInsert t ((pos + 1) % 2 ^ 32) o 1
        (if polA then POLARITY_POS else POLARITY_NEG)
      let res := riftEncodeGo polA rest (pos + 1) t2
      (o :: res.1, res.2)

/-- C `rift_encode`: the local output counter `out_len` starts at 0 on every
call. -/
def riftEncode (inp : List Nat) (polA : Bool) (t : RBTree) :
    List Nat × RBTree :=
  riftEncodeGo polA inp 0 t

/-- Loop of C `rift_open`: the byte source is modelled as the list of
successive `fread` results (each at most 4096 bytes); a chunk is consumed
only while the running total is below `out_cap`, and the produced bytes are
concatenated.  The returned first component is the produced output whose
length `rift_open` returns. -/
def riftOpenGo (polA : Bool) : List (List Nat) → Nat → Nat → RBTree →
    List Nat × RBTree
  | [], _, _, t => ([], t)
  | chunk :: rest, cap, total, t =>
      if total < cap then
        let res := riftEncode chunk polA t
        let more := riftOpenGo polA rest cap (total + res.1.length) res.2
        (res.1 ++ more.1, more.2)
      else ([], t)

/-- C `rift_open` on an openable source: drive `rift_encode` over the chunk
list starting from the empty index and a zero total. -/
def riftOpen (chunks : List (List Nat)) (cap : Nat) (polA : Bool) :
    List Nat × RBTree :=
  riftOpenGo polA chunks cap 0 RBTree.nil

/-- Mathematical height of the tree, as used by the balance claim:
`height(absent) = 0`, `height(node) = 1 + max(height l, height r)`.  This is
independent of the stored `hgt` fields. -/
def realHeight : RBTree → Nat
  | RBTree.nil => 0
  | RBTree.node _ _ _ _ _ l r => 1 + max (realHeight l) (realHeight r)

/-- Decidable AVL balance check over mathematical heights: at every node the
children's heights differ by at most 1. -/
def avlBalancedB : RBTree → Bool
  | RBTree.nil => true
  | RBTree.node _ _ _ _ _ l r =>
      decide (realHeight l ≤ realHeight r + 1) &&
      decide (realHeight r ≤ realHeight l + 1) &&
      avlBalancedB l && avlBalancedB r

/-- Inorder list of keys of the tree. -/
def keysList : RBTree → List Nat
  | RBTree.nil => []
  | RBTree.node k _ _ _ _ l r => keysList l ++ k :: keysList r

/-- Binary-search-tree ordering, stated node by node as in the claim: at
every node, every key of the left subtree is strictly below the node's key
and every key of the right subtree strictly above it. -/
def NodeOrdered : RBTree → Prop
  | RBTree.nil => True
  | RBTree.node k _ _ _ _ l r =>
      (∀ x ∈ keysList l, x < k) ∧ (∀ x ∈ keysList r, k < x) ∧
      NodeOrdered l ∧ NodeOrdered r

/-- Shape-and-keys skeleton of a tree: payload and stored height erased.
Two trees with the same skeleton have the same structure. -/
def skeleton : RBTree → RBTree
  | RBTree.nil => RBTree.nil
  | RBTree.node k _ _ _ _ l r =>
      RBTree.node k 0 0 0 0 (skeleton l) (skeleton r)

/-- One caller-visible index operation, for claims quantifying over
operation sequences: an insert, a measurement, or a lookup (`find` is
read-only, so a lookup leaves the state unchanged). -/
inductive MOp where
  | ins (key v : Nat) (c : ℚ) (p : Nat) : MOp
  | mark (key : Nat) (c : ℚ) (p : Nat) : MOp
  | query (key : Nat) : MOp

/-- Apply one operation to the state. -/
def applyOp (st : MState) : MOp → MState
  | MOp.ins k v c p => ⟨rbInsert st.tree k v c p, st.streak⟩
  | MOp.mark k c p => markMeasurement st k c p
  | MOp.query _ => st

/-- Apply a sequence of operations to the state. -/
def applyOps (st : MState) (ops : List MOp) : MState :=
  ops.foldl applyOp st

/-! Helper lemmas: the inorder key list is preserved by every height update
and by every rotation, hence by the whole rebalancing pass. -/

theorem keysList_updateHeight (t : RBTree) :
    keysList (updateHeight t) = keysList t := by
  cases t <;> simp [updateHeight, keysList]

theorem keysList_rotateLeft (t : RBTree) :
    keysList (rotateLeft t) = keysList t := by
  cases t with
  | nil => rfl
  | node k v c p h l r =>
      cases r with
      | nil => rfl
      | node k2 v2 c2 p2 h2 l2 r2 =>
          simp [rotateLeft, keysList_updateHeight, keysList]

theorem keysList_rotateRight (t : RBTree) :
    keysList (rotateRight t) = keysList t := by
  cases t with
  | nil => rfl
  | node k v c p h l r =>
      cases l with
      | nil => rfl
      | node k2 v2 c2 p2 h2 l2 r2 =>
          simp [rotateRight, keysList_updateHeight, keysList]

theorem keysList_preL (t : RBTree) : keysList (preL t) = keysList t := by
  cases t with
  | nil => rfl
  | node k v c p h l r =>
      simp only [preL]
      split <;> simp [keysList, keysList_rotateLeft]

theorem keysList_preR (t : RBTree) : keysList (preR t) = keysList t := by
  cases t with
  | nil => rfl
  | node k v c p h l r =>
      simp only [preR]
      split <;> simp [keysList, keysList_rotateRight]

theorem keysList_fixup (n : Nat) (t : RBTree) :
    keysList (fixup n t) = keysList t := by
  induction n generalizing t with
  | zero => rfl
  | succ n ih =>
      simp only [fixup]
      split
      · rw [ih, keysList_rotateRight, keysList_preL, keysList_updateHeight]
      · split
        · rw [ih, keysList_rotateLeft, keysList_preR, keysList_updateHeight]
        · exact keysList_updateHeight t

/-- Sortedness of an append, specialised from `List.pairwise_append`. -/
theorem sorted_append_iff {l1 l2 : List Nat} :
    (l1 ++ l2).Sorted (· < ·) ↔
      l1.Sorted (· < ·) ∧ l2.Sorted (· < ·) ∧ ∀ a ∈ l1, ∀ b ∈ l2, a < b :=
  List.pairwise_append

/-- Keys after an insert are the old keys plus the inserted key; on a
duplicate the key was already the node's key, so the equivalence holds in
both branches. -/
theorem mem_keysList_bstInsert (t : RBTree) (key v : Nat) (c : ℚ) (p : Nat)
    (x : Nat) :
    x ∈ keysList (bstInsert t key v c p).1 ↔ x ∈ keysList t ∨ x = key := by
  induction t with
  | nil => simp [bstInsert, keysList]
  | node k v0 c0 p0 h l r ihl ihr =>
      by_cases h1 : key < k
      · simp only [bstInsert, if_pos h1]
        split
        · rw [keysList_fixup]
          simp only [keysList, List.mem_append, List.mem_cons, ihl]
          tauto
        · rw [keysList_updateHeight]
          simp only [keysList, List.mem_append, List.mem_cons, ihl]
          tauto
      · by_cases h2 : k < key
        · simp only [bstInsert, if_neg h1, if_pos h2]
          split
          · rw [keysList_fixup]
            simp only [keysList, List.mem_append, List.mem_cons, ihr]
            tauto
          · rw [keysList_updateHeight]
            simp only [keysList, List.mem_append, List.mem_cons, ihr]
            tauto
        · have hk : key = k := by omega
          subst hk
          simp only [bstInsert, if_neg h1, if_neg h2]
          simp only [keysList, List.mem_append, List.mem_cons]
          tauto

/-- Same statement for the public insert. -/
theorem mem_keysList_rbInsert (t : RBTree) (key v : Nat) (c : ℚ) (p : Nat)
    (x : Nat) :
    x ∈ keysList (rbInsert t key v c p) ↔ x ∈ keysList t ∨ x = key := by
  cases t with
  | nil => simp [rbInsert, updateHeight, keysList]
  | node k v0 c0 p0 h l r =>
      exact mem_keysList_bstInsert (RBTree.node k v0 c0 p0 h l r) key v c p x

/-- Insertion preserves strict sortedness of the inorder key list. -/
theorem sorted_keysList_bstInsert (t : RBTree) (key v : Nat) (c : ℚ) (p : Nat)
    (hs : (keysList t).Sorted (· < ·)) :
    (keysList (bstInsert t key v c p).1).Sorted (· < ·) := by
  induction t with
  | nil => simp [bstInsert, keysList]
  | node k v0 c0 p0 h l r ihl ihr =>
      rw [keysList, sorted_append_iff] at hs
      obtain ⟨hsl, hskr, hcross⟩ := hs
      rw [List.sorted_cons] at hskr
      obtain ⟨hkr, hsr⟩ := hskr
      by_cases h1 : key < k
      · have hgoal : (keysList
            (RBTree.node k v0 c0 p0 h (bstInsert l key v c p).1 r)).Sorted
            (· < ·) := by
          rw [keysList, sorted_append_iff]
          refine ⟨ihl hsl, List.sorted_cons.mpr ⟨hkr, hsr⟩, ?_⟩
          intro a ha b hb
          rcases (mem_keysList_bstInsert l key v c p a).mp ha with ha2 | ha2
          · exact hcross a ha2 b hb
          · subst ha2
            rcases List.mem_cons.mp hb with rfl | hb2
            · exact h1
            · exact lt_trans h1 (hkr _ hb2)
        simp only [bstInsert, if_pos h1]
        split
        · rw [keysList_fixup]; exact hgoal
        · rw [keysList_updateHeight]; exact hgoal
      · by_cases h2 : k < key
        · have hgoal : (keysList
              (RBTree.node k v0 c0 p0 h l (bstInsert r key v c p).1)).Sorted
              (· < ·) := by
            rw [keysList, sorted_append_iff]
            refine ⟨hsl, ?_, ?_⟩
            · refine List.sorted_cons.mpr ⟨?_, ihr hsr⟩
              intro b hb
              rcases (mem_keysList_bstInsert r key v c p b).mp hb with hb2 | hb2
              · exact hkr b hb2
              · subst hb2; exact h2
            · intro a ha b hb
              rcases List.mem_cons.mp hb with rfl | hb2
              · exact hcross a ha b (List.mem_cons_self _ _)
              · rcases (mem_keysList_bstInsert r key v c p b).mp hb2 with
                  hb3 | hb3
                · exact hcross a ha b (List.mem_cons.mpr (Or.inr hb3))
                · subst hb3
                  exact lt_trans (hcross a ha k (List.mem_cons_self _ _)) h2
          simp only [bstInsert, if_neg h1, if_pos h2]
          split
          · rw [keysList_fixup]; exact hgoal
          · rw [keysList_updateHeight]; exact hgoal
        · have hk : key = k := by omega
          subst hk
          simp only [bstInsert, if_neg h1, if_neg h2]
          rw [keysList, sorted_append_iff]
          exact ⟨hsl, List.sorted_cons.mpr ⟨hkr, hsr⟩, hcross⟩

/-- Same statement for the public insert. -/
theorem sorted_keysList_rbInsert (t : RBTree) (key v : Nat) (c : ℚ) (p : Nat)
    (hs : (keysList t).Sorted (· < ·)) :
    (keysList (rbInsert t key v c p)).Sorted (· < ·) := by
  cases t with
  | nil => simp [rbInsert, updateHeight, keysList]
  | node k v0 c0 p0 h l r =>
      exact sorted_keysList_bstInsert (RBTree.node k v0 c0 p0 h l r) key v c p hs

/-- The node-by-node ordering property is equivalent to strict sortedness
of the inorder key list. -/
theorem nodeOrdered_iff_sorted (t : RBTree) :
    NodeOrdered t ↔ (keysList t).Sorted (· < ·) := by
  induction t with
  | nil => simp [NodeOrdered, keysList]
  | node k v c p h l r ihl ihr =>
      simp only [NodeOrdered, keysList]
      rw [sorted_append_iff, List.sorted_cons, ihl, ihr]
      constructor
      · rintro ⟨hl, hr, sl, sr⟩
        refine ⟨sl, ⟨hr, sr⟩, ?_⟩
        intro x hx y hy
        rcases List.mem_cons.mp hy with rfl | hy2
        · exact hl x hx
        · exact lt_trans (hl x hx) (hr y hy2)
      · rintro ⟨sl, ⟨hr, sr⟩, cross⟩
        exact ⟨fun x hx => cross x hx k (List.mem_cons_self _ _), hr, sl, sr⟩

/-- Payload rewriting does not change the key list. -/
theorem keysList_setPayload (t : RBTree) (key : Nat) (e : Entry) :
    keysList (setPayload t key e) = keysList t := by
  induction t with
  | nil => rfl
  | node k v c p h l r ihl ihr =>
      simp only [setPayload]
      split
      · simp [keysList]
      · split <;> simp [keysList, ihl, ihr]

/-- Measurement marking does not change the key list. -/
theorem keysList_markMeasurement (st : MState) (key : Nat) (c : ℚ) (p : Nat) :
    keysList (markMeasurement st key c p).tree = keysList st.tree := by
  unfold markMeasurement
  cases hf : find st.tree key with
  | none => rfl
  | some e =>
      simp only []
      repeat' split
      all_goals simp [keysList_setPayload]

/-- Height bookkeeping does not change the skeleton. -/
theorem skeleton_updateHeight (t : RBTree) :
    skeleton (updateHeight t) = skeleton t := by
  cases t <;> rfl

/-- Lookup ignores the stored height. -/
theorem find_updateHeight (t : RBTree) (k : Nat) :
    find (updateHeight t) k = find t k := by
  cases t <;> rfl

/-- The skeleton has the same node count as the tree. -/
theorem size_skeleton (t : RBTree) : size (skeleton t) = size t := by
  induction t <;> simp [skeleton, size, *]

/-- Rewriting the payload at a key that is present makes `find` return the
new payload. -/
theorem find_isSome_setPayload (t : RBTree) (key : Nat) (e2 : Entry)
    (h : (find t key).isSome) :
    find (setPayload t key e2) key = some e2 := by
  induction t with
  | nil => simp [find] at h
  | node k v c p hh l r ihl ihr =>
      by_cases h1 : key = k
      · subst h1
        simp [setPayload, find]
      · by_cases h2 : key < k
        · simp only [find, if_neg h1, if_pos h2] at h
          simp [setPayload, find, h1, h2, ihl h]
        · simp only [find, if_neg h1, if_neg h2] at h
          simp [setPayload, find, h1, h2, ihr h]

/-- Duplicate-key insertion: no fresh node is created, the skeleton is
unchanged (the C only refreshes stored heights on the search path), the
stored payload at the key becomes the inserted one, and every other key
still finds its old payload. -/
theorem bstInsert_dup (t : RBTree) (key v : Nat) (c : ℚ) (p : Nat) (e : Entry)
    (hf : find t key = some e) :
    (bstInsert t key v c p).2 = false ∧
    skeleton (bstInsert t key v c p).1 = skeleton t ∧
    find (bstInsert t key v c p).1 key = some ⟨v, c, p⟩ ∧
    ∀ k2, k2 ≠ key → find (bstInsert t key v c p).1 k2 = find t k2 := by
  induction t with
  | nil => simp [find] at hf
  | node k v0 c0 p0 hh l r ihl ihr =>
      by_cases h1 : key = k
      · subst h1
        have hx1 : ¬ key < key := Nat.lt_irrefl key
        simp only [bstInsert, if_neg hx1]
        refine ⟨trivial, rfl, by simp [find], ?_⟩
        intro k2 hk2
        simp [find, hk2]
      · by_cases h2 : key < k
        · have hfl : find l key = some e := by
            simpa [find, h1, h2] using hf
          obtain ⟨hb, hsk, hfk, hother⟩ := ihl hfl
          simp only [bstInsert, if_pos h2, hb, Bool.false_eq_true, if_false]
          refine ⟨trivial, ?_, ?_, ?_⟩
          · rw [skeleton_updateHeight]
            simp [skeleton, hsk]
          · rw [find_updateHeight]
            simp [find, h1, h2, hfk]
          · intro k2 hk2
            rw [find_updateHeight]
            by_cases hk2k : k2 = k
            · subst hk2k; simp [find]
            · by_cases hk2lt : k2 < k
              · simp [find, hk2k, hk2lt, hother k2 hk2]
              · simp [find, hk2k, hk2lt]
        · have h3 : k < key := by omega
          have hfr : find r key = some e := by
            simpa [find, h1, h2] using hf
          obtain ⟨hb, hsk, hfk, hother⟩ := ihr hfr
          simp only [bstInsert, if_neg h2, if_pos h3, hb, Bool.false_eq_true,
            if_false]
          refine ⟨trivial, ?_, ?_, ?_⟩
          · rw [skeleton_updateHeight]
            simp [skeleton, hsk]
          · rw [find_updateHeight]
            simp [find, h1, h2, hfk]
          · intro k2 hk2
            rw [find_updateHeight]
            by_cases hk2k : k2 = k
            · subst hk2k; simp [find]
            · by_cases hk2lt : k2 < k
              · simp [find, hk2k, hk2lt]
              · simp [find, hk2k, hk2lt, hother k2 hk2]

/-- Closed form of a qualifying measurement: the entry is pruned and the
bucket's streak is incremented. -/
theorem markMeasurement_eq_of_qualifying (st : MState) (key : Nat)
    (conf : ℚ) (pol : Nat) (e : Entry) (hf : find st.tree key = some e)
    (hq : conf < PRUNE_THRESHOLD ∨
      (if pol ≠ 0 then pol else e.pol) = POLARITY_NEG) :
    markMeasurement st key conf pol =
      ⟨setPayload st.tree key ⟨0, 0, if pol ≠ 0 then pol else e.pol⟩,
       fun i => if i = key % 256 then st.streak (key % 256) + 1
         else st.streak i⟩ := by
  unfold markMeasurement
  simp only [hf]
  rw [if_pos hq, if_pos (by simp [PRUNE_STREAK])]

/-- Closed form of a confident, non-negative measurement: the entry keeps
its value, takes the new confidence, and the bucket's streak is reset. -/
theorem markMeasurement_eq_of_confident (st : MState) (key : Nat)
    (conf : ℚ) (pol : Nat) (e : Entry) (hf : find st.tree key = some e)
    (hq : ¬ (conf < PRUNE_THRESHOLD ∨
      (if pol ≠ 0 then pol else e.pol) = POLARITY_NEG)) :
    markMeasurement st key conf pol =
      ⟨setPayload st.tree key ⟨e.val, conf, if pol ≠ 0 then pol else e.pol⟩,
       fun i => if i = key % 256 then 0 else st.streak i⟩ := by
  unfold markMeasurement
  simp only [hf]
  rw [if_neg hq]

/-! Claim theorems. -/

/-- C1, counterexample: the output position counter of `rift_encode` does
not persist across calls.  Processing one logical stream as the two
successive chunks `[0x41, 0x42]` and `[0x43, 0x44]` produces two output
bytes in total, but the index ends up with a single node: the second call
re-used key 1, overwriting the first chunk's entry (the stored value is
0x08, the second chunk's output byte), so the output bytes of the stream do
not receive distinct keys. -/
theorem claim1_running_position_counterexample :
    (riftEncode [0x41, 0x42] true RBTree.nil).1.length = 1 ∧
    (riftEncode [0x43, 0x44] true
      (riftEncode [0x41, 0x42] true RBTree.nil).2).1.length = 1 ∧
    size (riftEncode [0x43, 0x44] true
      (riftEncode [0x41, 0x42] true RBTree.nil).2).2 = 1 ∧
    find (riftEncode [0x43, 0x44] true
      (riftEncode [0x41, 0x42] true RBTree.nil).2).2 1 =
      some ⟨0x08, 1, POLARITY_POS⟩ := by
  refine ⟨rfl, rfl, rfl, rfl⟩

/-- C2, evaluation at the failing input: after inserting keys 1, 2, 3 into
the empty index (the keys `rift_encode` itself generates), the tree is a
right chain of three nodes, so the root's children have mathematical
heights 0 and 2 and the AVL balance invariant fails.  The cause is that
`rb_insert` allocates nodes with `calloc`, leaving the new leaf's stored
height at 0 — the same value `height` returns for an absent child — so
`rebalance_up` under-measures every freshly extended path and never
rotates here. -/
theorem claim2_balance_violated_at_1_2_3 :
    avlBalancedB (rbInsert (rbInsert (rbInsert RBTree.nil 1 10 1
      POLARITY_POS) 2 20 1 POLARITY_POS) 3 30 1 POLARITY_POS) = false ∧
    skeleton (rbInsert (rbInsert (rbInsert RBTree.nil 1 10 1
      POLARITY_POS) 2 20 1 POLARITY_POS) 3 30 1 POLARITY_POS) =
      RBTree.node 1 0 0 0 0 RBTree.nil
        (RBTree.node 2 0 0 0 0 RBTree.nil
          (RBTree.node 3 0 0 0 0 RBTree.nil RBTree.nil)) := by
  refine ⟨rfl, rfl⟩

/-- C4, evaluation at the failing input: `rift_open` checks the capacity
only before reading a whole chunk, so with a 4-byte source and
`out_cap = 1` it encodes the entire chunk and returns 2 produced bytes,
exceeding the requested capacity (and in the C, writing past the
caller's buffer). -/
theorem claim4_capacity_exceeded :
    (riftOpen [[0, 0, 0, 0]] 1 true).1.length = 2 ∧ 1 < 2 := by
  refine ⟨rfl, by omega⟩

/-- C7, behaviour of the intended reset (the C source itself does not
compile at the reset site, see `markMeasurement`): a qualifying
measurement on key 1 raises bucket 1's streak to 1, and a following
confident, non-negative measurement resets that bucket to 0 while leaving
the entry unpruned further (its confidence becomes the new measurement's). -/
theorem claim7_confident_measurement_resets_streak :
    (markMeasurement ⟨rbInsert RBTree.nil 1 12 1 POLARITY_POS, fun _ => 0⟩
      1 (2/5) 0).streak 1 = 1 ∧
    (markMeasurement (markMeasurement
      ⟨rbInsert RBTree.nil 1 12 1 POLARITY_POS, fun _ => 0⟩
      1 (2/5) 0) 1 (9/10) 0).streak 1 = 0 ∧
    find (markMeasurement (markMeasurement
      ⟨rbInsert RBTree.nil 1 12 1 POLARITY_POS, fun _ => 0⟩
      1 (2/5) 0) 1 (9/10) 0).tree 1 = some ⟨0, 9/10, POLARITY_POS⟩ := by
  have h1 := markMeasurement_eq_of_qualifying
    ⟨rbInsert RBTree.nil 1 12 1 POLARITY_POS, fun _ => 0⟩ 1 (2/5) 0
    ⟨12, 1, POLARITY_POS⟩ rfl (Or.inl (by norm_num [PRUNE_THRESHOLD]))
  rw [h1]
  have h2 := markMeasurement_eq_of_confident
    (⟨setPayload (rbInsert RBTree.nil 1 12 1 POLARITY_POS) 1
      ⟨0, 0, if (0 : Nat) ≠ 0 then 0 else Entry.pol ⟨12, 1, POLARITY_POS⟩⟩,
      fun i => if i = 1 % 256 then
        (fun _ => (0 : Nat)) (1 % 256) + 1 else (fun _ => (0 : Nat)) i⟩ :
      MState) 1 (9/10) 0 ⟨0, 0, POLARITY_POS⟩ rfl
    (by norm_num [PRUNE_THRESHOLD, POLARITY_POS, POLARITY_NEG])
  rw [h2]
  refine ⟨rfl, rfl, rfl⟩

/-- C5: a measurement on a present entry whose confidence is below the
0.5 threshold, or whose resulting polarity is negative, immediately prunes
the entry — the stored payload becomes value 0 with confidence 0 (the
streak check fires at once because the incremented bucket count is at
least `PRUNE_STREAK = 1`). -/
theorem claim5_qualifying_measurement_prunes (st : MState) (key : Nat)
    (conf : ℚ) (pol : Nat) (e : Entry)
    (hf : find st.tree key = some e)
    (hq : conf < PRUNE_THRESHOLD ∨
      (if pol ≠ 0 then pol else e.pol) = POLARITY_NEG) :
    find (markMeasurement st key conf pol).tree key =
      some ⟨0, 0, if pol ≠ 0 then pol else e.pol⟩ := by
  unfold markMeasurement
  simp only [hf]
  rw [if_pos hq, if_pos (by simp [PRUNE_STREAK])]
  exact find_isSome_setPayload st.tree key _ (by rw [hf]; rfl)

/-- C5 witness: `markMeasurement(1, 0.9, '-')` on a positive entry with
full confidence prunes it despite the high confidence. -/
theorem claim5_witness :
    find (markMeasurement ⟨rbInsert RBTree.nil 1 12 1 POLARITY_POS,
      fun _ => 0⟩ 1 (9/10) POLARITY_NEG).tree 1 =
      some ⟨0, 0, POLARITY_NEG⟩ := by
  have h := claim5_qualifying_measurement_prunes
    ⟨rbInsert RBTree.nil 1 12 1 POLARITY_POS, fun _ => 0⟩
    1 (9/10) POLARITY_NEG ⟨12, 1, POLARITY_POS⟩ rfl
    (Or.inr (by decide))
  simpa using h

/-- C9: a measurement on an absent key is a silent no-op — the whole state,
tree and streak counters included, is returned unchanged. -/
theorem claim9_absent_key_noop (st : MState) (key : Nat) (conf : ℚ)
    (pol : Nat) (hf : find st.tree key = none) :
    markMeasurement st key conf pol = st := by
  unfold markMeasurement
  rw [hf]

/-- C9 witness: marking key 5 in the empty state changes nothing. -/
theorem claim9_witness :
    markMeasurement initState 5 (2/5) POLARITY_NEG = initState :=
  claim9_absent_key_noop initState 5 (2/5) POLARITY_NEG rfl

/-- C6: inserting a key that is already present never increases the node
count, leaves the skeleton (shape and keys) unchanged, overwrites the
value, confidence and polarity stored at that key, and leaves every other
key's payload untouched. -/
theorem claim6_duplicate_insert_in_place (t : RBTree) (key v : Nat) (c : ℚ)
    (p : Nat) (e : Entry) (hf : find t key = some e) :
    size (rbInsert t key v c p) = size t ∧
    skeleton (rbInsert t key v c p) = skeleton t ∧
    find (rbInsert t key v c p) key = some ⟨v, c, p⟩ ∧
    ∀ k2, k2 ≠ key → find (rbInsert t key v c p) k2 = find t k2 := by
  cases t with
  | nil => simp [find] at hf
  | node k v0 c0 p0 hh l r =>
      obtain ⟨hb, hsk, hfk, hother⟩ :=
        bstInsert_dup (RBTree.node k v0 c0 p0 hh l r) key v c p e hf
      have hins : rbInsert (RBTree.node k v0 c0 p0 hh l r) key v c p =
          (bstInsert (RBTree.node k v0 c0 p0 hh l r) key v c p).1 := rfl
      rw [hins]
      refine ⟨?_, hsk, hfk, hother⟩
      rw [← size_skeleton, hsk, size_skeleton]

/-- C6 witness: re-inserting key 1 into a two-node index keeps the size at
2, rewrites key 1's payload, and leaves key 2's payload as it was. -/
theorem claim6_witness :
    size (rbInsert (rbInsert (rbInsert RBTree.nil 1 12 1 POLARITY_POS)
      2 7 1 POLARITY_POS) 1 9 (1/4) POLARITY_NEG) = 2 ∧
    find (rbInsert (rbInsert (rbInsert RBTree.nil 1 12 1 POLARITY_POS)
      2 7 1 POLARITY_POS) 1 9 (1/4) POLARITY_NEG) 1 =
      some ⟨9, 1/4, POLARITY_NEG⟩ ∧
    find (rbInsert (rbInsert (rbInsert RBTree.nil 1 12 1 POLARITY_POS)
      2 7 1 POLARITY_POS) 1 9 (1/4) POLARITY_NEG) 2 =
      find (rbInsert (rbInsert RBTree.nil 1 12 1 POLARITY_POS)
        2 7 1 POLARITY_POS) 2 := by
  have h := claim6_duplicate_insert_in_place
    (rbInsert (rbInsert RBTree.nil 1 12 1 POLARITY_POS) 2 7 1 POLARITY_POS)
    1 9 (1/4) POLARITY_NEG ⟨12, 1, POLARITY_POS⟩ rfl
  exact ⟨h.1, h.2.2.1, h.2.2.2 2 (by decide)⟩

/-- Output length of the encoder loop: one byte per input pair, the odd
trailing byte padded, so `ceil(length / 2)` bytes in total. -/
theorem riftEncodeGo_length (polA : Bool) :
    ∀ (n : Nat) (l : List Nat) (pos : Nat) (t : RBTree), l.length ≤ n →
      ((riftEncodeGo polA l pos t).1).length = (l.length + 1) / 2 := by
  intro n
  induction n with
  | zero =>
      intro l pos t h
      cases l with
      | nil => rfl
      | cons a rest => simp at h
  | succ n ih =>
      intro l pos t h
      match l with
      | [] => rfl
      | [a] => simp [riftEncodeGo]
      | a :: b :: rest =>
          simp only [riftEncodeGo, List.length_cons]
          rw [ih rest (pos + 1) _ (by simp at h; omega)]
          omega

/-- C8: the encoder emits exactly `ceil(inputLength / 2)` bytes for every
input and polarity, and the spec's two concrete examples hold:
`encode([0x41], B) = [0x4E]` (odd input padded with 0x00) and
`encode([0x41, 0x42], A) = [0x0C]`. -/
theorem claim8_output_length_and_padding :
    (∀ (inp : List Nat) (polA : Bool) (t : RBTree),
      ((riftEncode inp polA t).1).length = (inp.length + 1) / 2) ∧
    (riftEncode [0x41] false RBTree.nil).1 = [0x4E] ∧
    (riftEncode [0x41, 0x42] true RBTree.nil).1 = [0x0C] := by
  refine ⟨?_, rfl, rfl⟩
  intro inp polA t
  exact riftEncodeGo_length polA inp.length inp 0 t (Nat.le_refl _)

/-- The two polarity modes combine a pair to the same byte. -/
theorem logical_true_eq_false (a b : Nat) :
    logical true a b = logical false a b := by
  simp only [logical, if_true, Bool.false_eq_true, if_false, conjugate]
  rw [← Nat.xor_assoc, Nat.xor_comm (byte a) 15]

/-- Either polarity mode equals XOR of the two bytes with the mask 0xF. -/
theorem logical_eq_xor_mask (a b : Nat) :
    logical true a b = (byte a ^^^ byte b) ^^^ 15 := by
  simp only [logical, if_true, conjugate]
  rw [Nat.xor_comm 15 (byte b), ← Nat.xor_assoc]

/-- The byte output of the encoder loop does not depend on the polarity
(nor on the position counter or the index it threads). -/
theorem riftEncodeGo_fst_polarity (n : Nat) :
    ∀ (l : List Nat) (pos1 pos2 : Nat) (t1 t2 : RBTree), l.length ≤ n →
      (riftEncodeGo true l pos1 t1).1 = (riftEncodeGo false l pos2 t2).1 := by
  induction n with
  | zero =>
      intro l pos1 pos2 t1 t2 h
      cases l with
      | nil => rfl
      | cons a rest => simp at h
  | succ n ih =>
      intro l pos1 pos2 t1 t2 h
      match l with
      | [] => rfl
      | [a] => simp [riftEncodeGo, logical_true_eq_false]
      | a :: b :: rest =>
          simp only [riftEncodeGo]
          rw [logical_true_eq_false,
            ih rest (pos1 + 1) (pos2 + 1) _ _ (by simp at h; omega)]

/-- C10: for every byte pair the two polarity modes agree,
`a XOR conjugate(b) = conjugate(a) XOR b = (a XOR b) XOR 0xF`, so encoding
any input with polarity A or polarity B emits the same output bytes; only
the polarity tag inserted into the index differs. -/
theorem claim10_polarity_modes_same_output :
    (∀ a b : Nat, logical true a b = logical false a b ∧
      logical true a b = (byte a ^^^ byte b) ^^^ 15) ∧
    ∀ (inp : List Nat) (t1 t2 : RBTree),
      (riftEncode inp true t1).1 = (riftEncode inp false t2).1 := by
  refine ⟨fun a b => ⟨logical_true_eq_false a b, logical_eq_xor_mask a b⟩, ?_⟩
  intro inp t1 t2
  exact riftEncodeGo_fst_polarity inp.length inp 0 0 t1 t2 (Nat.le_refl _)

/-- C3: after any sequence of insert, measurement and lookup operations
starting from the empty index, every node of the tree has all left-subtree
keys strictly below its key and all right-subtree keys strictly above it. -/
theorem claim3_bst_ordering_preserved (ops : List MOp) :
    NodeOrdered (applyOps initState ops).tree := by
  rw [nodeOrdered_iff_sorted]
  have main : ∀ (ops2 : List MOp) (st : MState),
      (keysList st.tree).Sorted (· < ·) →
      (keysList (applyOps st ops2).tree).Sorted (· < ·) := by
    intro ops2
    induction ops2 with
    | nil => intro st h; simpa [applyOps] using h
    | cons op rest ih =>
        intro st h
        simp only [applyOps, List.foldl_cons] at ih ⊢
        apply ih
        cases op with
        | ins k v c p =>
            simpa [applyOp] using sorted_keysList_rbInsert st.tree k v c p h
        | mark k c p =>
            simpa [applyOp, keysList_markMeasurement] using h
        | query k => simpa [applyOp] using h
  exact main ops initState (by simp [initState, keysList])

/-- Keys present after one encoder call, with the position counter starting
at 0: exactly the 1-based positions of the produced bytes, each output byte
receiving its own distinct key within the call. -/
theorem riftEncodeGo_mem_keys (polA : Bool) :
    ∀ (n : Nat) (l : List Nat) (pos : Nat) (t : RBTree) (x : Nat),
      l.length ≤ n → pos + (l.length + 1) / 2 < 2 ^ 32 →
      (x ∈ keysList (riftEncodeGo polA l pos t).2 ↔
        x ∈ keysList t ∨ (pos + 1 ≤ x ∧ x ≤ pos + (l.length + 1) / 2)) := by
  intro n
  induction n with
  | zero =>
      intro l pos t x h hb
      cases l with
      | nil =>
          simp only [riftEncodeGo, List.length_nil]
          constructor
          · exact Or.inl
          · rintro (hx | ⟨h1, h2⟩)
            · exact hx
            · omega
      | cons a rest => simp at h
  | succ n ih =>
      intro l pos t x h hb
      match l with
      | [] =>
          simp only [riftEncodeGo, List.length_nil]
          constructor
          · exact Or.inl
          · rintro (hx | ⟨h1, h2⟩)
            · exact hx
            · omega
      | [a] =>
          simp only [riftEncodeGo]
          rw [mem_keysList_rbInsert]
          rw [Nat.mod_eq_of_lt (show pos + 1 < 2 ^ 32 by
            simp only [List.length_cons, List.length_nil] at hb; omega)]
          simp only [List.length_cons, List.length_nil]
          constructor
          · rintro (hx | rfl)
            · exact Or.inl hx
            · right; omega
          · rintro (hx | ⟨h1, h2⟩)
            · exact Or.inl hx
            · right; omega
      | a :: b :: rest =>
          simp only [riftEncodeGo]
          have hb0 : pos + 1 < 2 ^ 32 := by
            simp only [List.length_cons] at hb; omega
          have hb2 : (pos + 1) + (rest.length + 1) / 2 < 2 ^ 32 := by
            simp only [List.length_cons] at hb; omega
          rw [ih rest (pos + 1) _ x (by simp at h; omega) hb2,
            mem_keysList_rbInsert, Nat.mod_eq_of_lt hb0]
          simp only [List.length_cons]
          by_cases hA : x ∈ keysList t
          · simp [hA]
          · simp [hA]
            omega

/-- C1, amended: the 1-based output position counter is local to each
`rift_encode` call (it does not persist across calls), so within a single
call over one chunk every output byte is inserted under a distinct key
equal to its 1-based position in that call — the keys present after
encoding a chunk into an empty index are exactly `1 .. ceil(len/2)`. -/
theorem claim1_amended_keys_within_one_call (inp : List Nat) (polA : Bool)
    (x : Nat) (hlen : inp.length ≤ 4096) :
    x ∈ keysList (riftEncode inp polA RBTree.nil).2 ↔
      1 ≤ x ∧ x ≤ (inp.length + 1) / 2 := by
  have h := riftEncodeGo_mem_keys polA inp.length inp 0 RBTree.nil x
    (Nat.le_refl _) (by omega)
  simpa [riftEncode, keysList] using h

/-- C1 amended, witness: encoding a three-byte chunk yields keys 1 and 2;
in particular key 2 is present. -/
theorem claim1_amended_witness :
    2 ∈ keysList (riftEncode [0x41, 0x42, 0x43] true RBTree.nil).2 :=
  (claim1_amended_keys_within_one_call [0x41, 0x42, 0x43] true 2
    (by decide)).mpr (by decide)

end Ropen
